import Mathlib

/-!
Shallow embedding of the geneve package (Geneve header/option binary codec).

Bytes are modelled as `Nat` values; Go's fixed-width conversions are made
explicit with `% 2^w` at the points where the source performs a conversion
or where unsigned overflow can occur.  Errors are a closed inductive type
mirroring the package-level error values.  Methods that mutate their
receiver (`Header.UnmarshalBinary` and the offset variant) are embedded as
functions returning the new receiver state alongside the result.
-/

namespace Geneve

/-- Go: `MaxVNI = (1 << 24) - 1`. -/
def MaxVNI : Nat := (1 <<< 24) - 1

/-- Go: `Version = 0`, the current Geneve protocol version. -/
def Version : Nat := 0

/-- Go: `ProtocolTypeEthernet ProtocolType = 0x6558`. -/
def ProtocolTypeEthernet : Nat := 0x6558

/-- Go: `maxOptionType = (1 << 7) - 1`. -/
def maxOptionType : Nat := (1 <<< 7) - 1

/-- Go: `maxOptionLength = (1 << 5) - 1`. -/
def maxOptionLength : Nat := (1 <<< 5) - 1

/-- Go: `optionHeaderLen = 4`. -/
def optionHeaderLen : Nat := 4

/-- Go: `headerLen = 8`. -/
def headerLen : Nat := 8

/-- The package's error values (`errors.New` sentinels and `io.ErrUnexpectedEOF`). -/
inductive Err where
  | invalidVersion
  | invalidVNI
  | invalidOptionDataLength
  | invalidOptionType
  | invalidOptionLength
  | unexpectedEOF
deriving DecidableEq

/-- Go: `func (v VNI) Valid() bool { return v <= MaxVNI }`. -/
def VNI.Valid (v : Nat) : Bool := v ≤ MaxVNI

/-- Go struct `Option` (option.go).  `Data` is a byte slice, modelled as a
list of byte values. -/
structure Option where
  OptionClass : Nat
  FlagCritical : Bool
  «Type» : Nat
  Data : List Nat
deriving DecidableEq

/-- Go struct `Header` (header.go). -/
structure Header where
  Version : Nat
  FlagOAM : Bool
  FlagCritical : Bool
  ProtocolType : Nat
  VNI : Nat
  Options : List Option
deriving DecidableEq

/-- The zero value `new(Header)` used by callers as a fresh receiver. -/
def emptyHeader : Header :=
  { Version := 0, FlagOAM := false, FlagCritical := false,
    ProtocolType := 0, VNI := 0, Options := [] }

/-- Reading byte `i` of a buffer (out-of-range reads do not occur on the
paths guarded by the source's length checks). -/
def byteAt (b : List Nat) (i : Nat) : Nat := b.getD i 0

/-- Go: `binary.BigEndian.Uint16(b[i:i+2])`. -/
def uint16be (b : List Nat) (i : Nat) : Nat :=
  (byteAt b i <<< 8) ||| byteAt b (i + 1)

/-- Go: `binary.BigEndian.Uint32(b[i:i+4])`. -/
def uint32be (b : List Nat) (i : Nat) : Nat :=
  (byteAt b i <<< 24) ||| (byteAt b (i + 1) <<< 16) |||
    (byteAt b (i + 2) <<< 8) ||| byteAt b (i + 3)

/-- Go: `func (o *Option) MarshalBinary() ([]byte, error)` (option.go).
`byte(...)` conversions appear as `% 256`; `PutUint16` writes
`byte(v >> 8), byte(v)`. -/
def Option.MarshalBinary (o : Option) : Except Err (List Nat) :=
  if o.Data.length % 4 ≠ 0 then .error .invalidOptionDataLength
  else
    let ld := o.Data.length / 4
    if maxOptionType < o.«Type» then .error .invalidOptionType
    else if maxOptionLength < ld then .error .invalidOptionLength
    else .ok ([(o.OptionClass >>> 8) % 256, o.OptionClass % 256,
               (if o.FlagCritical then (1 <<< 7) else 0) ||| o.«Type»,
               ld % 256] ++ o.Data)

/-- Go: `func (o *Option) UnmarshalBinary(b []byte) error` (option.go).
The source fully overwrites the receiver on success and leaves it untouched
on error, so it is embedded as a receiver-free decoder. -/
def Option.UnmarshalBinary (b : List Nat) : Except Err Option :=
  if b.length < optionHeaderLen then .error .unexpectedEOF
  else if b.length % 4 ≠ 0 then .error .invalidOptionLength
  else
    let ol := (byteAt b 3 &&& 0x1f) * 4
    if b.length < optionHeaderLen + ol then .error .unexpectedEOF
    else .ok { OptionClass := uint16be b 0,
               FlagCritical := (byteAt b 2 >>> 7) == 1,
               «Type» := byteAt b 2 &&& 0x7f,
               Data := (b.drop optionHeaderLen).take ol }

/-- The option-marshalling loop inside `Header.MarshalBinary`: marshal each
option in order, stopping at the first error, concatenating the encodings. -/
def marshalOptions : List Option → Except Err (List Nat)
  | [] => .ok []
  | o :: rest =>
    match o.MarshalBinary with
    | .error e => .error e
    | .ok ob =>
      match marshalOptions rest with
      | .error e => .error e
      | .ok obs => .ok (ob ++ obs)

/-- Go: `func (h *Header) MarshalBinary() ([]byte, error)` (header.go).
`h.Version << 6` is uint8 arithmetic (`% 256`); `byte(len(obs)/4)` is
`% 256`; `uint16(...)`/`uint32(...)` conversions and `<< 8` on uint32 are
explicit `% 2^16` / `% 2^32`. -/
def Header.MarshalBinary (h : Header) : Except Err (List Nat) :=
  if h.Version ≠ Geneve.Version then .error .invalidVersion
  else if !(VNI.Valid h.VNI) then .error .invalidVNI
  else
    match marshalOptions h.Options with
    | .error e => .error e
    | .ok obs =>
      let b0 := ((h.Version <<< 6) % 256) ||| ((obs.length / 4) % 256)
      let b1 := (if h.FlagOAM then (1 <<< 7) else 0) |||
                (if h.FlagCritical then (1 <<< 6) else 0)
      let pt := h.ProtocolType % 65536
      let w := ((h.VNI % 4294967296) <<< 8) % 4294967296
      .ok ([b0, b1, (pt >>> 8) % 256, pt % 256,
            (w >>> 24) % 256, (w >>> 16) % 256, (w >>> 8) % 256, w % 256] ++ obs)

/-- The option-parsing loop inside `unmarshalBinaryOffset`:
`i := headerLen; for i <= ol { parse b[i:]; append; i += 4 + len(Data) }`.
Returns the accumulated options plus either the first decode error or the
final value of `i`. -/
def optionLoop (b : List Nat) (ol : Nat) (acc : List Option) (i : Nat) :
    List Option × Except Err Nat :=
  if _h : i ≤ ol then
    match Option.UnmarshalBinary (b.drop i) with
    | .error e => (acc, .error e)
    | .ok o => optionLoop b ol (acc ++ [o]) (i + (optionHeaderLen + o.Data.length))
  else (acc, .ok i)
termination_by ol + 1 - i
decreasing_by simp [optionHeaderLen]; omega

/-- Go: `func (h *Header) unmarshalBinaryOffset(b []byte) (int, error)`
(header.go).  The receiver is mutated field-by-field exactly where the
source assigns it, so the returned `Header` is the receiver's state at the
point the function returns (also on the error paths). -/
def Header.unmarshalBinaryOffset (h : Header) (b : List Nat) :
    Header × Except Err Nat :=
  if b.length < headerLen then (h, .error .unexpectedEOF)
  else
    let h1 := { h with Version := byteAt b 0 >>> 6 }
    let ol := (byteAt b 0 &&& 0x3f) * 4
    if b.length < headerLen + ol then (h1, .error .unexpectedEOF)
    else
      let h2 := { h1 with
        FlagOAM := (byteAt b 1 >>> 7) == 1,
        FlagCritical := ((byteAt b 1 &&& 0x40) >>> 6) == 1,
        ProtocolType := uint16be b 2,
        VNI := uint32be b 4 >>> 8 }
      if ol = 0 then (h2, .ok headerLen)
      else
        match optionLoop b ol h2.Options headerLen with
        | (opts, .error e) => ({ h2 with Options := opts }, .error e)
        | (opts, .ok i) => ({ h2 with Options := opts }, .ok i)

/-- Go: `func (h *Header) UnmarshalBinary(b []byte) error` (header.go),
discarding the offset. -/
def Header.UnmarshalBinary (h : Header) (b : List Nat) :
    Header × Except Err Unit :=
  match Header.unmarshalBinaryOffset h b with
  | (h', .error e) => (h', .error e)
  | (h', .ok _) => (h', .ok ())

/-- Well-formedness of an `Option` as constrained by the Go field types
(`OptionClass uint16`) together with the conditions under which
`Option.MarshalBinary` succeeds. -/
abbrev MOk (o : Option) : Prop :=
  o.OptionClass < 65536 ∧ o.«Type» ≤ 127 ∧
    o.Data.length % 4 = 0 ∧ o.Data.length ≤ 124

/-- The byte encoding produced by a successful `Option.MarshalBinary`. -/
def optEnc (o : Option) : List Nat :=
  [(o.OptionClass >>> 8) % 256, o.OptionClass % 256,
   (if o.FlagCritical then (1 <<< 7) else 0) ||| o.«Type»,
   (o.Data.length / 4) % 256] ++ o.Data

/-- Concatenated encodings of a list of options. -/
def encList : List Option → List Nat
  | [] => []
  | o :: rest => optEnc o ++ encList rest

/-- Total wire length of a list of options: `Σ (4 + len(Data))`. -/
def olen : List Option → Nat
  | [] => 0
  | o :: rest => (4 + o.Data.length) + olen rest

/-- Well-formedness of a `Header` as constrained by the Go field types
(`ProtocolType uint16`) together with the conditions under which
`Header.MarshalBinary` succeeds. -/
abbrev HOk (h : Header) : Prop :=
  h.Version = 0 ∧ h.VNI ≤ MaxVNI ∧ h.ProtocolType < 65536 ∧ ∀ o ∈ h.Options, MOk o

/-- The byte buffer produced by a successful `Header.MarshalBinary`. -/
def hdrEnc (h : Header) : List Nat :=
  [((h.Version <<< 6) % 256) ||| (((encList h.Options).length / 4) % 256),
   (if h.FlagOAM then (1 <<< 7) else 0) ||| (if h.FlagCritical then (1 <<< 6) else 0),
   ((h.ProtocolType % 65536) >>> 8) % 256, (h.ProtocolType % 65536) % 256,
   ((((h.VNI % 4294967296) <<< 8) % 4294967296) >>> 24) % 256,
   ((((h.VNI % 4294967296) <<< 8) % 4294967296) >>> 16) % 256,
   ((((h.VNI % 4294967296) <<< 8) % 4294967296) >>> 8) % 256,
   (((h.VNI % 4294967296) <<< 8) % 4294967296) % 256] ++ encList h.Options

/-! ### Bitwise arithmetic bridges -/

theorem mul_pow_lor_eq_add (k a b : Nat) (hb : b < 2 ^ k) :
    (2 ^ k * a) ||| b = 2 ^ k * a + b := by
  apply Nat.eq_of_testBit_eq
  intro j
  rw [Nat.testBit_lor, Nat.testBit_mul_pow_two_add _ hb]
  have h0 : (0 : Nat) < 2 ^ k := Nat.pos_pow_of_pos _ (by norm_num)
  have h2 := Nat.testBit_mul_pow_two_add a h0 j
  rw [Nat.add_zero] at h2
  rw [h2]
  by_cases hj : j < k
  · simp [hj]
  · have hb' : b.testBit j = false :=
      Nat.testBit_eq_false_of_lt
        (lt_of_lt_of_le hb (Nat.pow_le_pow_right (by norm_num) (Nat.le_of_not_lt hj)))
    simp [hj, hb']

theorem lor_eq_add (x b k : Nat) (hx : x % 2 ^ k = 0) (hb : b < 2 ^ k) :
    x ||| b = x + b := by
  have h := mul_pow_lor_eq_add k (x / 2 ^ k) b hb
  rwa [Nat.mul_div_cancel' (Nat.dvd_of_mod_eq_zero hx)] at h

theorem shiftLeft_lor_eq_add (a b k : Nat) (hb : b < 2 ^ k) :
    (a <<< k) ||| b = a <<< k + b := by
  rw [Nat.shiftLeft_eq, Nat.mul_comm]
  exact mul_pow_lor_eq_add k a b hb

theorem lor_small_shiftRight (x y k : Nat) (hy : y < 2 ^ k) :
    (x ||| y) >>> k = x >>> k := by
  apply Nat.eq_of_testBit_eq
  intro j
  rw [Nat.testBit_shiftRight, Nat.testBit_shiftRight, Nat.testBit_lor]
  have hy' : y.testBit (k + j) = false :=
    Nat.testBit_eq_false_of_lt
      (lt_of_lt_of_le hy (Nat.pow_le_pow_right (by norm_num) (Nat.le_add_right k j)))
  simp [hy']

theorem lor_and_of_and_zero (x y m : Nat) (h : y &&& m = 0) :
    (x ||| y) &&& m = x &&& m := by
  apply Nat.eq_of_testBit_eq
  intro j
  have hy : (y &&& m).testBit j = false := by rw [h]; simp
  rw [Nat.testBit_land] at hy
  rw [Nat.testBit_land, Nat.testBit_land, Nat.testBit_lor]
  cases hty : y.testBit j <;> cases htm : m.testBit j <;> simp_all

theorem and_mask_eq_mod (x k : Nat) : x &&& (2 ^ k - 1) = x % 2 ^ k := by
  apply Nat.eq_of_testBit_eq
  intro j
  rw [Nat.testBit_land, Nat.testBit_two_pow_sub_one, Nat.testBit_mod_two_pow,
    Bool.and_comm]

theorem and63 (x : Nat) : x &&& 63 = x % 64 := by
  have h := and_mask_eq_mod x 6
  norm_num at h
  exact h

theorem and31 (x : Nat) : x &&& 31 = x % 32 := by
  have h := and_mask_eq_mod x 5
  norm_num at h
  exact h

theorem and127 (x : Nat) : x &&& 127 = x % 128 := by
  have h := and_mask_eq_mod x 7
  norm_num at h
  exact h

/-! ### Option codec lemmas -/

theorem optEnc_length (o : Option) : (optEnc o).length = 4 + o.Data.length := by
  simp [optEnc]; omega

theorem optionMarshal_ok (o : Option) (h1 : o.Data.length % 4 = 0)
    (h2 : o.«Type» ≤ 127) (h3 : o.Data.length ≤ 124) :
    Option.MarshalBinary o = .ok (optEnc o) := by
  have e1 : maxOptionType = 127 := by decide
  have e2 : maxOptionLength = 31 := by decide
  simp only [Option.MarshalBinary, optEnc, e1, e2, h1]
  rw [if_neg (by omega), if_neg (by omega), if_neg (by omega)]

theorem critByte_false (ty : Nat) :
    (if false = true then (1 <<< 7) else 0) ||| ty = ty := by
  simp

theorem critByte_true (ty : Nat) (hty : ty ≤ 127) :
    (if true = true then (1 <<< 7) else 0) ||| ty = 128 + ty := by
  show (1 <<< 7) ||| ty = 128 + ty
  rw [shiftLeft_lor_eq_add 1 ty 7 (by exact lt_of_le_of_lt hty (by norm_num))]
  norm_num [Nat.shiftLeft_eq]

theorem unmarshal_optEnc (o : Option) (t : List Nat)
    (hM : MOk o) (ht : t.length % 4 = 0) :
    Option.UnmarshalBinary (optEnc o ++ t) = .ok o := by
  obtain ⟨cls, crit, ty, data⟩ := o
  obtain ⟨hc, hty, hd4, hd124⟩ := hM
  dsimp only at hc hty hd4 hd124
  have hlen : (optEnc ⟨cls, crit, ty, data⟩ ++ t).length = 4 + data.length + t.length := by
    simp [optEnc]; omega
  have hb3 : byteAt (optEnc ⟨cls, crit, ty, data⟩ ++ t) 3 = data.length / 4 := by
    simp only [optEnc, List.cons_append, List.append_assoc, byteAt,
      List.getD_cons_succ, List.getD_cons_zero]
    omega
  have hol : (byteAt (optEnc ⟨cls, crit, ty, data⟩ ++ t) 3 &&& 0x1f) * 4 = data.length := by
    rw [hb3, and31]; omega
  have hb0 : byteAt (optEnc ⟨cls, crit, ty, data⟩ ++ t) 0 = (cls >>> 8) % 256 := by
    simp only [optEnc, List.cons_append, byteAt, List.getD_cons_zero]
  have hb1 : byteAt (optEnc ⟨cls, crit, ty, data⟩ ++ t) 1 = cls % 256 := by
    simp only [optEnc, List.cons_append, byteAt, List.getD_cons_succ, List.getD_cons_zero]
  have hb2 : byteAt (optEnc ⟨cls, crit, ty, data⟩ ++ t) 2 =
      (if crit = true then (1 <<< 7) else 0) ||| ty := by
    simp only [optEnc, List.cons_append, byteAt, List.getD_cons_succ, List.getD_cons_zero]
  have hcls : uint16be (optEnc ⟨cls, crit, ty, data⟩ ++ t) 0 = cls := by
    rw [uint16be, hb0, hb1]
    have h8 : cls >>> 8 = cls / 256 := by rw [Nat.shiftRight_eq_div_pow]
    have hlt : cls / 256 < 256 := by omega
    rw [h8, Nat.mod_eq_of_lt hlt,
      shiftLeft_lor_eq_add _ _ 8 (by exact Nat.mod_lt _ (by norm_num)),
      Nat.shiftLeft_eq]
    have e : (2 : Nat) ^ 8 = 256 := by norm_num
    rw [e]
    omega
  have hdata : ((optEnc ⟨cls, crit, ty, data⟩ ++ t).drop optionHeaderLen).take data.length
      = data := by
    have he : optEnc ⟨cls, crit, ty, data⟩ ++ t =
        [(cls >>> 8) % 256, cls % 256, (if crit = true then (1 <<< 7) else 0) ||| ty,
         (data.length / 4) % 256] ++ (data ++ t) := by
      simp [optEnc]
    rw [he]
    rw [show optionHeaderLen =
      ([(cls >>> 8) % 256, cls % 256, (if crit = true then (1 <<< 7) else 0) ||| ty,
        (data.length / 4) % 256]).length from rfl]
    rw [List.drop_left]
    exact data.take_left t
  rw [Option.UnmarshalBinary]
  rw [if_neg (by rw [hlen]; simp [optionHeaderLen]; omega)]
  rw [if_neg (by rw [hlen]; omega)]
  simp only [hol]
  rw [if_neg (by rw [hlen, optionHeaderLen]; omega)]
  rw [hb2, hcls, hdata]
  cases crit with
  | false =>
    rw [critByte_false]
    have h7 : ty >>> 7 = 0 := by rw [Nat.shiftRight_eq_div_pow]; norm_num; omega
    have h127 : ty &&& 0x7f = ty := by rw [and127]; omega
    simp [h7, h127]
  | true =>
    rw [critByte_true ty hty]
    have h7 : (128 + ty) >>> 7 = 1 := by rw [Nat.shiftRight_eq_div_pow]; norm_num; omega
    have h127 : (128 + ty) &&& 0x7f = ty := by rw [and127]; omega
    simp [h7, h127]

/-! ### Option-list lemmas -/

theorem marshalOptions_ok (opts : List Option) (h : ∀ o ∈ opts, MOk o) :
    marshalOptions opts = .ok (encList opts) := by
  induction opts with
  | nil => rfl
  | cons o rest ih =>
    have hM := h o (by simp)
    rw [marshalOptions, optionMarshal_ok o hM.2.2.1 hM.2.1 hM.2.2.2,
      ih (fun o' ho' => h o' (by simp [ho']))]
    rfl

theorem encList_length (opts : List Option) : (encList opts).length = olen opts := by
  induction opts with
  | nil => rfl
  | cons o rest ih => simp [encList, olen, optEnc_length, ih]

theorem olen_mod4 (opts : List Option) (h : ∀ o ∈ opts, o.Data.length % 4 = 0) :
    olen opts % 4 = 0 := by
  induction opts with
  | nil => rfl
  | cons o rest ih =>
    have h1 := h o (by simp)
    have h2 := ih (fun o' ho' => h o' (by simp [ho']))
    simp only [olen]
    omega

/-! ### The option-parsing loop on well-formed input -/

theorem optionLoop_complete (rest : List Option) :
    ∀ (acc : List Option) (b t : List Nat) (i OL : Nat),
    (∀ o ∈ rest, MOk o) →
    (∀ o', rest.getLast? = some o' → o'.Data ≠ []) →
    b.drop i = encList rest ++ t →
    t.length % 4 = 0 →
    i + olen rest = 8 + OL →
    optionLoop b OL acc i = (acc ++ rest, .ok (8 + OL)) := by
  induction rest with
  | nil =>
    intro acc b t i OL _ _ _ _ hiOL
    simp only [olen] at hiOL
    have hieq : i = 8 + OL := by omega
    rw [optionLoop, dif_neg (by omega), hieq]
    simp
  | cons o rest' ih =>
    intro acc b t i OL hM hlast hdrop ht hiOL
    have hMo := hM o (by simp)
    have holen8 : 8 ≤ olen (o :: rest') := by
      cases rest' with
      | nil =>
        have hne := hlast o (by simp)
        have h1 : 0 < o.Data.length := List.length_pos.mpr hne
        have h4 := hMo.2.2.1
        simp only [olen]
        omega
      | cons o2 r2 =>
        have h4 := (hM o2 (by simp)).2.2.1
        simp only [olen]
        omega
    have hi_le : i ≤ OL := by omega
    have hd2 : encList (o :: rest') ++ t = optEnc o ++ (encList rest' ++ t) := by
      simp [encList]
    have htail4 : (encList rest' ++ t).length % 4 = 0 := by
      rw [List.length_append, encList_length]
      have := olen_mod4 rest' (fun o' ho' => (hM o' (by simp [ho'])).2.2.1)
      omega
    rw [optionLoop, dif_pos hi_le, hdrop, hd2, unmarshal_optEnc o _ hMo htail4]
    show optionLoop b OL (acc ++ [o]) (i + (optionHeaderLen + o.Data.length)) =
      (acc ++ o :: rest', .ok (8 + OL))
    have hstep : i + (optionHeaderLen + o.Data.length) = i + (4 + o.Data.length) := rfl
    rw [hstep]
    have hdrop' : b.drop (i + (4 + o.Data.length)) = encList rest' ++ t := by
      rw [← List.drop_drop, hdrop, hd2]
      rw [show (4 + o.Data.length) = (optEnc o).length by rw [optEnc_length]]
      exact List.drop_left _ _
    have hsum' : (i + (4 + o.Data.length)) + olen rest' = 8 + OL := by
      simp only [olen] at hiOL
      omega
    have hlast' : ∀ o', rest'.getLast? = some o' → o'.Data ≠ [] := by
      intro o' ho'
      apply hlast
      cases rest' with
      | nil => simp at ho'
      | cons o2 r2 => rw [List.getLast?_cons_cons]; exact ho'
    rw [ih (acc ++ [o]) b t _ OL (fun o' ho' => hM o' (by simp [ho'])) hlast'
      hdrop' ht hsum']
    simp

/-! ### Byte recomposition helpers -/

theorem be16_recompose (x : Nat) (hx : x < 65536) :
    (((x >>> 8) % 256) <<< 8) ||| (x % 256) = x := by
  have h8 : x >>> 8 = x / 256 := by rw [Nat.shiftRight_eq_div_pow]
  have hlt : x / 256 < 256 := by omega
  rw [h8, Nat.mod_eq_of_lt hlt,
    shiftLeft_lor_eq_add _ _ 8 (by exact Nat.mod_lt _ (by norm_num)),
    Nat.shiftLeft_eq]
  have e : (2 : Nat) ^ 8 = 256 := by norm_num
  rw [e]
  omega

theorem be32_recompose (x y z u : Nat) (hy : y < 256) (hz : z < 256) (hu : u < 256) :
    (x <<< 24) ||| (y <<< 16) ||| (z <<< 8) ||| u =
      ((x * 256 + y) * 256 + z) * 256 + u := by
  have e24 : (2 : Nat) ^ 24 = 16777216 := by norm_num
  have e16 : (2 : Nat) ^ 16 = 65536 := by norm_num
  have e8 : (2 : Nat) ^ 8 = 256 := by norm_num
  have h1 : (x <<< 24) ||| (y <<< 16) = x <<< 24 + y <<< 16 := by
    apply shiftLeft_lor_eq_add
    rw [Nat.shiftLeft_eq, e16, e24]
    omega
  have h2 : (x <<< 24 + y <<< 16) ||| (z <<< 8) = x <<< 24 + y <<< 16 + z <<< 8 := by
    apply lor_eq_add _ _ 16
    · rw [Nat.shiftLeft_eq, Nat.shiftLeft_eq, e16, e24]
      omega
    · rw [Nat.shiftLeft_eq, e8, e16]
      omega
  have h3 : (x <<< 24 + y <<< 16 + z <<< 8) ||| u =
      x <<< 24 + y <<< 16 + z <<< 8 + u := by
    apply lor_eq_add _ _ 8
    · rw [Nat.shiftLeft_eq, Nat.shiftLeft_eq, Nat.shiftLeft_eq, e16, e24, e8]
      omega
    · rw [e8]
      omega
  rw [h1, h2, h3, Nat.shiftLeft_eq, Nat.shiftLeft_eq, Nat.shiftLeft_eq, e24, e16, e8]
  ring

theorem flagOAM_decode (a c : Bool) :
    ((((if a then (1 <<< 7) else 0) ||| (if c then (1 <<< 6) else 0)) >>> 7) == 1) = a := by
  cases a <;> cases c <;> rfl

theorem flagCrit_decode (a c : Bool) :
    (((((if a then (1 <<< 7) else 0) ||| (if c then (1 <<< 6) else 0)) &&& 0x40) >>> 6) == 1)
      = c := by
  cases a <;> cases c <;> rfl

/-! ### Header encode/decode lemmas -/

theorem hdrEnc_length (h : Header) : (hdrEnc h).length = 8 + olen h.Options := by
  simp [hdrEnc, encList_length]; omega

theorem headerMarshal_ok (h : Header) (hv : h.Version = 0)
    (hvni : h.VNI ≤ MaxVNI) (hopts : ∀ o ∈ h.Options, MOk o) :
    Header.MarshalBinary h = .ok (hdrEnc h) := by
  have hvB : VNI.Valid h.VNI = true := by simp [VNI.Valid]; exact hvni
  rw [Header.MarshalBinary]
  rw [if_neg (by rw [hv]; exact fun hne => hne rfl)]
  rw [hvB]
  simp only [Bool.not_true, Bool.false_eq_true, if_false]
  rw [marshalOptions_ok _ hopts]
  rfl

theorem unmarshal_hdrEnc (h : Header) (t : List Nat)
    (hH : HOk h) (h252 : olen h.Options ≤ 252)
    (hlast : ∀ o', h.Options.getLast? = some o' → o'.Data ≠ [])
    (ht : t.length % 4 = 0) :
    Header.unmarshalBinaryOffset emptyHeader (hdrEnc h ++ t) =
      (h, .ok (8 + olen h.Options)) := by
  obtain ⟨v, oam, crit, pt, vni, opts⟩ := h
  obtain ⟨hv, hvni, hpt, hopts⟩ := hH
  dsimp only at hv hvni hpt hopts hlast h252 ⊢
  subst hv
  have hMv : MaxVNI = 16777215 := by decide
  rw [hMv] at hvni
  have holen4 : olen opts % 4 = 0 := olen_mod4 opts (fun o ho => (hopts o ho).2.2.1)
  have hwc : (encList opts).length = olen opts := encList_length opts
  -- individual bytes of the encoded header
  have hb0 : byteAt (hdrEnc ⟨0, oam, crit, pt, vni, opts⟩ ++ t) 0 = olen opts / 4 := by
    simp only [hdrEnc, List.cons_append, byteAt, List.getD_cons_zero]
    rw [hwc, show ((0 : Nat) <<< 6) % 256 = 0 from rfl, Nat.zero_or]
    omega
  have hb1 : byteAt (hdrEnc ⟨0, oam, crit, pt, vni, opts⟩ ++ t) 1 =
      (if oam then (1 <<< 7) else 0) ||| (if crit then (1 <<< 6) else 0) := by
    simp only [hdrEnc, List.cons_append, byteAt, List.getD_cons_succ, List.getD_cons_zero]
  have hptm : pt % 65536 = pt := Nat.mod_eq_of_lt hpt
  have hb2 : byteAt (hdrEnc ⟨0, oam, crit, pt, vni, opts⟩ ++ t) 2 = ((pt >>> 8) % 256) := by
    simp only [hdrEnc, List.cons_append, byteAt, List.getD_cons_succ, List.getD_cons_zero]
    rw [hptm]
  have hb3 : byteAt (hdrEnc ⟨0, oam, crit, pt, vni, opts⟩ ++ t) 3 = pt % 256 := by
    simp only [hdrEnc, List.cons_append, byteAt, List.getD_cons_succ, List.getD_cons_zero]
    rw [hptm]
  have hw : ((vni % 4294967296) <<< 8) % 4294967296 = vni * 256 := by
    rw [Nat.mod_eq_of_lt (show vni < 4294967296 by omega), Nat.shiftLeft_eq]
    have e : (2 : Nat) ^ 8 = 256 := by norm_num
    rw [e]
    omega
  have hb4 : byteAt (hdrEnc ⟨0, oam, crit, pt, vni, opts⟩ ++ t) 4 = vni / 65536 := by
    simp only [hdrEnc, List.cons_append, byteAt, List.getD_cons_succ, List.getD_cons_zero]
    rw [hw, Nat.shiftRight_eq_div_pow]
    have e : (2 : Nat) ^ 24 = 16777216 := by norm_num
    rw [e]
    omega
  have hb5 : byteAt (hdrEnc ⟨0, oam, crit, pt, vni, opts⟩ ++ t) 5 = vni / 256 % 256 := by
    simp only [hdrEnc, List.cons_append, byteAt, List.getD_cons_succ, List.getD_cons_zero]
    rw [hw, Nat.shiftRight_eq_div_pow]
    have e : (2 : Nat) ^ 16 = 65536 := by norm_num
    rw [e]
    omega
  have hb6 : byteAt (hdrEnc ⟨0, oam, crit, pt, vni, opts⟩ ++ t) 6 = vni % 256 := by
    simp only [hdrEnc, List.cons_append, byteAt, List.getD_cons_succ, List.getD_cons_zero]
    rw [hw, Nat.shiftRight_eq_div_pow]
    have e : (2 : Nat) ^ 8 = 256 := by norm_num
    rw [e]
    omega
  have hb7 : byteAt (hdrEnc ⟨0, oam, crit, pt, vni, opts⟩ ++ t) 7 = 0 := by
    simp only [hdrEnc, List.cons_append, byteAt, List.getD_cons_succ, List.getD_cons_zero]
    rw [hw]
    omega
  have hlen : (hdrEnc ⟨0, oam, crit, pt, vni, opts⟩ ++ t).length =
      8 + olen opts + t.length := by
    rw [List.length_append, hdrEnc_length]
  have hol : (byteAt (hdrEnc ⟨0, oam, crit, pt, vni, opts⟩ ++ t) 0 &&& 0x3f) * 4 =
      olen opts := by
    rw [hb0, and63]
    omega
  have hver : byteAt (hdrEnc ⟨0, oam, crit, pt, vni, opts⟩ ++ t) 0 >>> 6 = 0 := by
    rw [hb0, Nat.shiftRight_eq_div_pow]
    have e : (2 : Nat) ^ 6 = 64 := by norm_num
    rw [e]
    omega
  have hpt' : uint16be (hdrEnc ⟨0, oam, crit, pt, vni, opts⟩ ++ t) 2 = pt := by
    rw [uint16be, hb2, hb3]
    exact be16_recompose pt hpt
  have hvni' : uint32be (hdrEnc ⟨0, oam, crit, pt, vni, opts⟩ ++ t) 4 >>> 8 = vni := by
    rw [uint32be, hb4, hb5, hb6, hb7,
      be32_recompose _ _ _ _ (by exact Nat.mod_lt _ (by norm_num))
        (by exact Nat.mod_lt _ (by norm_num)) (by norm_num),
      Nat.shiftRight_eq_div_pow]
    have e : (2 : Nat) ^ 8 = 256 := by norm_num
    rw [e]
    omega
  have hdrop : (hdrEnc ⟨0, oam, crit, pt, vni, opts⟩ ++ t).drop 8 = encList opts ++ t := by
    simp only [hdrEnc, List.cons_append, List.append_assoc, List.drop_succ_cons,
      List.drop_zero, List.nil_append]
  rw [Header.unmarshalBinaryOffset]
  rw [if_neg (by rw [hlen]; simp only [headerLen]; omega)]
  rw [if_neg (by rw [hol, hlen]; simp only [headerLen]; omega)]
  rw [hver, hb1, flagOAM_decode, flagCrit_decode, hpt', hvni', hol]
  by_cases hnil : opts = []
  · subst hnil
    rw [if_pos (by simp [olen])]
    simp [emptyHeader, olen, headerLen]
  · have holpos : olen opts ≠ 0 := by
      cases opts with
      | nil => exact absurd rfl hnil
      | cons o r => simp only [olen]; omega
    rw [if_neg holpos]
    have hloop := optionLoop_complete opts [] (hdrEnc ⟨0, oam, crit, pt, vni, opts⟩ ++ t)
      t 8 (olen opts) hopts hlast (by rw [hdrop]) ht (by omega)
    rw [show headerLen = 8 from rfl]
    rw [show (emptyHeader.Options : List Option) = [] from rfl]
    rw [hloop]
    simp

/-! ### Buffer-update helpers (for reserved-bit tolerance) -/

theorem byteAt_set_ne (b : List Nat) (i k v : Nat) (h : i ≠ k) :
    byteAt (b.set i v) k = byteAt b k := by
  simp [byteAt, List.getD_eq_getElem?_getD, List.getElem?_set, h]

theorem byteAt_set_self (b : List Nat) (i v : Nat) (h : i < b.length) :
    byteAt (b.set i v) i = v := by
  simp [byteAt, List.getD_eq_getElem?_getD, List.getElem?_set, h]

theorem lor_lt_256 (x y : Nat) (hx : x < 256) (hy : y < 256) : x ||| y < 256 := by
  have h := lor_small_shiftRight x y 8 (by norm_num; omega)
  rw [Nat.shiftRight_eq_div_pow, Nat.shiftRight_eq_div_pow] at h
  have e : (2 : Nat) ^ 8 = 256 := by norm_num
  rw [e] at h
  omega

theorem optionLoop_drop_eq (ol : Nat) :
    ∀ (n : Nat) (b1 b2 : List Nat) (acc : List Option) (i : Nat),
    ol + 1 - i ≤ n → b1.drop i = b2.drop i →
    optionLoop b1 ol acc i = optionLoop b2 ol acc i := by
  intro n
  induction n with
  | zero =>
    intro b1 b2 acc i hn hdrop
    rw [optionLoop, optionLoop, dif_neg (by omega), dif_neg (by omega)]
  | succ n ih =>
    intro b1 b2 acc i hn hdrop
    rw [optionLoop]
    rw [optionLoop]
    by_cases hi : i ≤ ol
    · rw [dif_pos hi, dif_pos hi, hdrop]
      cases hu : Option.UnmarshalBinary (b2.drop i) with
      | error e => rfl
      | ok o =>
        apply ih
        · simp only [optionHeaderLen]
          omega
        · rw [← List.drop_drop, hdrop, List.drop_drop]
    · rw [dif_neg hi, dif_neg hi]

/-! ### Claim C1: Header round-trip -/

/-- C1 counterexample: a Header with `Version = 0`, a valid VNI and a single
option that individually marshals successfully (empty `Data`) marshals to a
12-byte buffer, but unmarshalling that buffer yields a Header whose option
list is empty, hence not equal to the original.  The loop `for i <= ol`
(header.go) never runs because `i` starts at 8 while `ol = 4`. -/
theorem c1_roundtrip_counterexample :
    Option.MarshalBinary ⟨0, false, 0, []⟩ = .ok [0, 0, 0, 0] ∧
    VNI.Valid 0 = true ∧
    Header.MarshalBinary ⟨0, false, false, 0, 0, [⟨0, false, 0, []⟩]⟩ =
      .ok [1, 0, 0, 0, 0, 0, 0, 0, 0, 0, 0, 0] ∧
    Header.UnmarshalBinary emptyHeader [1, 0, 0, 0, 0, 0, 0, 0, 0, 0, 0, 0] =
      ({ Version := 0, FlagOAM := false, FlagCritical := false, ProtocolType := 0,
         VNI := 0, Options := [] }, .ok ()) ∧
    ({ Version := 0, FlagOAM := false, FlagCritical := false, ProtocolType := 0,
       VNI := 0, Options := [] } : Header) ≠
      ⟨0, false, false, 0, 0, [⟨0, false, 0, []⟩]⟩ := by
  refine ⟨rfl, rfl, rfl, ?_, by decide⟩
  rw [Header.UnmarshalBinary, Header.unmarshalBinaryOffset]
  simp [byteAt, uint16be, uint32be, emptyHeader, headerLen]
  rw [optionLoop]
  simp

/-- C1 (amended): for every Header with `Version = 0`, a valid VNI,
well-formed fields, and options that all individually marshal successfully,
round-trip through `Header.MarshalBinary` and `Header.UnmarshalBinary`
recovers the Header exactly, provided additionally that the total encoded
option length is at most 252 bytes (63 words) and that the final option, if
any, has nonempty `Data`. -/
theorem c1_roundtrip_amended (h : Header)
    (hH : HOk h) (h252 : olen h.Options ≤ 252)
    (hlast : ∀ o', h.Options.getLast? = some o' → o'.Data ≠ []) :
    ∃ bs, Header.MarshalBinary h = .ok bs ∧
      Header.UnmarshalBinary emptyHeader bs = (h, .ok ()) := by
  obtain ⟨hv, hvni, hpt, hopts⟩ := hH
  refine ⟨hdrEnc h, headerMarshal_ok h hv hvni hopts, ?_⟩
  have hd := unmarshal_hdrEnc h [] ⟨hv, hvni, hpt, hopts⟩ h252 hlast (by simp)
  rw [List.append_nil] at hd
  rw [Header.UnmarshalBinary, hd]

/-- C1 witness: the amended round-trip at a concrete two-option Header. -/
theorem c1_roundtrip_witness :
    ∃ bs, Header.MarshalBinary
      ⟨0, true, true, 0x6558, 0xbbeeff,
        [⟨1, true, 2, [0, 1, 2, 3]⟩, ⟨2, false, 4, [4, 5, 6, 7, 8, 9, 10, 11]⟩]⟩ =
        .ok bs ∧
      Header.UnmarshalBinary emptyHeader bs =
        (⟨0, true, true, 0x6558, 0xbbeeff,
          [⟨1, true, 2, [0, 1, 2, 3]⟩, ⟨2, false, 4, [4, 5, 6, 7, 8, 9, 10, 11]⟩]⟩,
         .ok ()) := by
  apply c1_roundtrip_amended
  · exact ⟨rfl, by decide, by decide, by decide⟩
  · decide
  · intro o' ho'
    rw [show ([⟨1, true, 2, [0, 1, 2, 3]⟩,
        ⟨2, false, 4, [4, 5, 6, 7, 8, 9, 10, 11]⟩] : List Option).getLast? =
      some ⟨2, false, 4, [4, 5, 6, 7, 8, 9, 10, 11]⟩ from rfl] at ho'
    injection ho' with he
    rw [← he]
    decide

/-! ### Claim C2: payload offset -/

/-- C2 counterexample: a successfully marshalled 16-byte header buffer with
one option, followed by a single payload byte, fails to decode at all
(`InvalidOptionLength`), because `Option.UnmarshalBinary` rejects the
trailing slice whose total length 9 is not a multiple of 4. -/
theorem c2_payload_counterexample :
    Header.MarshalBinary ⟨0, false, false, 0, 0, [⟨0, false, 0, [0, 0, 0, 0]⟩]⟩ =
      .ok [2, 0, 0, 0, 0, 0, 0, 0, 0, 0, 0, 1, 0, 0, 0, 0] ∧
    (Header.unmarshalBinaryOffset emptyHeader
        ([2, 0, 0, 0, 0, 0, 0, 0, 0, 0, 0, 1, 0, 0, 0, 0] ++ [0])).2 =
      .error .invalidOptionLength := by
  refine ⟨rfl, ?_⟩
  rw [Header.unmarshalBinaryOffset]
  simp [byteAt, uint16be, uint32be, emptyHeader, headerLen]
  rw [optionLoop]
  rfl

/-- C2 (amended): for every well-formed Header whose total encoded option
length is at most 252 bytes and whose final option (if any) has nonempty
`Data`, and every payload whose length is a multiple of 4, decoding the
marshalled buffer with the payload appended succeeds with offset equal to
the buffer length and the same Header as decoding the buffer alone. -/
theorem c2_payload_offset_amended (h : Header) (P : List Nat)
    (hH : HOk h) (h252 : olen h.Options ≤ 252)
    (hlast : ∀ o', h.Options.getLast? = some o' → o'.Data ≠ [])
    (hP : P.length % 4 = 0) :
    ∃ bs, Header.MarshalBinary h = .ok bs ∧
      Header.unmarshalBinaryOffset emptyHeader (bs ++ P) = (h, .ok bs.length) ∧
      Header.unmarshalBinaryOffset emptyHeader bs = (h, .ok bs.length) := by
  obtain ⟨hv, hvni, hpt, hopts⟩ := hH
  refine ⟨hdrEnc h, headerMarshal_ok h hv hvni hopts, ?_, ?_⟩
  · rw [hdrEnc_length]
    exact unmarshal_hdrEnc h P ⟨hv, hvni, hpt, hopts⟩ h252 hlast hP
  · rw [hdrEnc_length]
    have hd := unmarshal_hdrEnc h [] ⟨hv, hvni, hpt, hopts⟩ h252 hlast (by simp)
    rwa [List.append_nil] at hd

/-- C2 witness: the amended payload-offset property at a concrete one-option
Header with a 4-byte payload. -/
theorem c2_payload_offset_witness :
    ∃ bs, Header.MarshalBinary ⟨0, false, false, 0x6558, 5, [⟨7, true, 3, [1, 2, 3, 4]⟩]⟩ =
        .ok bs ∧
      Header.unmarshalBinaryOffset emptyHeader (bs ++ [9, 9, 9, 9]) =
        (⟨0, false, false, 0x6558, 5, [⟨7, true, 3, [1, 2, 3, 4]⟩]⟩, .ok bs.length) ∧
      Header.unmarshalBinaryOffset emptyHeader bs =
        (⟨0, false, false, 0x6558, 5, [⟨7, true, 3, [1, 2, 3, 4]⟩]⟩, .ok bs.length) := by
  apply c2_payload_offset_amended
  · exact ⟨rfl, by decide, by decide, by decide⟩
  · decide
  · intro o' ho'
    rw [show ([⟨7, true, 3, [1, 2, 3, 4]⟩] : List Option).getLast? =
      some ⟨7, true, 3, [1, 2, 3, 4]⟩ from rfl] at ho'
    injection ho' with he
    rw [← he]
    decide
  · decide

/-! ### Claim C3: the option-parsing loop -/

/-- C3: evaluation of the decoder at the failing input
`01 00 00 00 00 00 00 00 | 00 00 00 00`.  The buffer advertises `ol = 4`
option bytes and carries a well-formed 4-byte option, yet the loop
`for i <= ol` (with `i` starting at `headerLen = 8`) never executes: the
call succeeds with payload offset 8 — not `8 + ol = 12` — and consumes no
option bytes, contradicting the specified loop bound and the postcondition
that the bytes consumed equal `ol`. -/
theorem c3_loop_failing_input :
    Header.unmarshalBinaryOffset emptyHeader [1, 0, 0, 0, 0, 0, 0, 0, 0, 0, 0, 0] =
      ({ Version := 0, FlagOAM := false, FlagCritical := false, ProtocolType := 0,
         VNI := 0, Options := [] }, .ok 8) := by
  rw [Header.unmarshalBinaryOffset]
  simp [byteAt, uint16be, uint32be, emptyHeader, headerLen]
  rw [optionLoop]
  simp

/-! ### Claim C4: decode errors and receiver state -/

/-- C4 counterexample: a receiver Header with `Version = 3` passed an 8-byte
buffer whose option-length field demands 4 more bytes.  The call fails with
a short-read error, yet the receiver's `Version` field has already been
overwritten with the decoded value 0 — a partially populated result is
observable. -/
theorem c4_partial_mutation_counterexample :
    (Header.unmarshalBinaryOffset ⟨3, false, false, 0, 0, []⟩
        [1, 0, 0, 0, 0, 0, 0, 0]).2 = .error .unexpectedEOF ∧
    (Header.unmarshalBinaryOffset ⟨3, false, false, 0, 0, []⟩
        [1, 0, 0, 0, 0, 0, 0, 0]).1.Version = 0 ∧
    (⟨3, false, false, 0, 0, []⟩ : Header).Version = 3 :=
  ⟨rfl, rfl, rfl⟩

/-- C4 (amended): a failed decode can leave the receiver partially
modified; the receiver is guaranteed unchanged only when the buffer is
shorter than the 8-byte fixed header, in which case both decode entry
points return the untouched receiver with a short-read error. -/
theorem c4_error_frame_amended (h : Header) (b : List Nat) (hb : b.length < 8) :
    Header.unmarshalBinaryOffset h b = (h, .error .unexpectedEOF) ∧
    Header.UnmarshalBinary h b = (h, .error .unexpectedEOF) := by
  have h1 : Header.unmarshalBinaryOffset h b = (h, .error .unexpectedEOF) := by
    rw [Header.unmarshalBinaryOffset, if_pos (show b.length < headerLen from hb)]
  exact ⟨h1, by rw [Header.UnmarshalBinary, h1]⟩

/-- C4 witness: the amended frame property at a concrete receiver and a
3-byte buffer. -/
theorem c4_error_frame_witness :
    Header.unmarshalBinaryOffset ⟨7, true, false, 9, 9, []⟩ [1, 2, 3] =
      (⟨7, true, false, 9, 9, []⟩, .error .unexpectedEOF) ∧
    Header.UnmarshalBinary ⟨7, true, false, 9, 9, []⟩ [1, 2, 3] =
      (⟨7, true, false, 9, 9, []⟩, .error .unexpectedEOF) :=
  c4_error_frame_amended _ _ (by decide)

/-! ### Claim C5: the 6-bit option-length field on marshal -/

set_option maxRecDepth 100000 in
/-- C5 counterexample: 64 options with empty `Data`, each individually
valid, marshal successfully (no rejection), producing 256 option bytes —
64 words, which does not fit the 6-bit field.  `byte(len(obs)/4)` then
corrupts byte 0: its low 6 bits are 0 (not the word count 64) and its high
2 bits are 1 (not the header's `Version`, which is 0). -/
theorem c5_optlen_counterexample :
    (∀ o ∈ List.replicate 64 (⟨0, false, 0, []⟩ : Option),
      Option.MarshalBinary o = .ok [0, 0, 0, 0]) ∧
    Header.MarshalBinary ⟨0, false, false, 0, 0, List.replicate 64 ⟨0, false, 0, []⟩⟩ =
      .ok ([64, 0, 0, 0, 0, 0, 0, 0] ++ List.replicate 256 0) ∧
    (List.replicate 256 (0 : Nat)).length / 4 = 64 ∧
    byteAt ([64, 0, 0, 0, 0, 0, 0, 0] ++ List.replicate 256 0) 0 &&& 0x3f = 0 ∧
    byteAt ([64, 0, 0, 0, 0, 0, 0, 0] ++ List.replicate 256 0) 0 >>> 6 = 1 := by
  refine ⟨?_, rfl, by decide, by decide, by decide⟩
  intro o ho
  have he : o = ⟨0, false, 0, []⟩ := List.eq_of_mem_replicate ho
  subst he
  rfl

/-- C5 (amended): whenever `Header.MarshalBinary` succeeds and the total
marshalled option length is at most 252 bytes (word count at most 63), the
low 6 bits of byte 0 of the output equal the option word count and the high
2 bits equal the header's `Version`.  (Marshal itself never rejects longer
option vectors, and such vectors are constructible — see the
counterexample.) -/
theorem c5_optlen_field_amended (h : Header) (obs bs : List Nat)
    (hm : marshalOptions h.Options = .ok obs)
    (h252 : obs.length ≤ 252)
    (hbs : Header.MarshalBinary h = .ok bs) :
    byteAt bs 0 &&& 0x3f = obs.length / 4 ∧ byteAt bs 0 >>> 6 = h.Version := by
  rw [Header.MarshalBinary] at hbs
  by_cases hv : h.Version ≠ Geneve.Version
  · rw [if_pos hv] at hbs
    exact absurd hbs (by simp)
  · rw [if_neg hv] at hbs
    push_neg at hv
    have hv0 : h.Version = 0 := hv
    cases hB : VNI.Valid h.VNI with
    | false =>
      rw [hB] at hbs
      exact absurd hbs (by simp)
    | true =>
      rw [hB] at hbs
      simp only [Bool.not_true, Bool.false_eq_true, if_false] at hbs
      rw [hm] at hbs
      have hbs' : ([((h.Version <<< 6) % 256) ||| ((obs.length / 4) % 256),
          (if h.FlagOAM then (1 <<< 7) else 0) ||| (if h.FlagCritical then (1 <<< 6) else 0),
          ((h.ProtocolType % 65536) >>> 8) % 256, (h.ProtocolType % 65536) % 256,
          ((((h.VNI % 4294967296) <<< 8) % 4294967296) >>> 24) % 256,
          ((((h.VNI % 4294967296) <<< 8) % 4294967296) >>> 16) % 256,
          ((((h.VNI % 4294967296) <<< 8) % 4294967296) >>> 8) % 256,
          (((h.VNI % 4294967296) <<< 8) % 4294967296) % 256] ++ obs : List Nat) = bs := by
        injection hbs
      rw [← hbs']
      have hb0 : byteAt ([((h.Version <<< 6) % 256) ||| ((obs.length / 4) % 256),
          (if h.FlagOAM then (1 <<< 7) else 0) ||| (if h.FlagCritical then (1 <<< 6) else 0),
          ((h.ProtocolType % 65536) >>> 8) % 256, (h.ProtocolType % 65536) % 256,
          ((((h.VNI % 4294967296) <<< 8) % 4294967296) >>> 24) % 256,
          ((((h.VNI % 4294967296) <<< 8) % 4294967296) >>> 16) % 256,
          ((((h.VNI % 4294967296) <<< 8) % 4294967296) >>> 8) % 256,
          (((h.VNI % 4294967296) <<< 8) % 4294967296) % 256] ++ obs) 0 =
          obs.length / 4 := by
        simp only [List.cons_append, byteAt, List.getD_cons_zero]
        rw [hv0, show ((0 : Nat) <<< 6) % 256 = 0 from rfl, Nat.zero_or]
        omega
      rw [hb0, and63, hv0, Nat.shiftRight_eq_div_pow]
      have e : (2 : Nat) ^ 6 = 64 := by norm_num
      rw [e]
      omega

/-- C5 witness: the amended byte-0 property at a concrete one-option
Header. -/
theorem c5_optlen_field_witness :
    byteAt [2, 0, 0, 0, 0, 0, 0, 0, 0, 0, 0, 1, 9, 9, 9, 9] 0 &&& 0x3f =
      ([0, 0, 0, 1, 9, 9, 9, 9] : List Nat).length / 4 ∧
    byteAt [2, 0, 0, 0, 0, 0, 0, 0, 0, 0, 0, 1, 9, 9, 9, 9] 0 >>> 6 =
      (⟨0, false, false, 0, 0, [⟨0, false, 0, [9, 9, 9, 9]⟩]⟩ : Header).Version :=
  c5_optlen_field_amended ⟨0, false, false, 0, 0, [⟨0, false, 0, [9, 9, 9, 9]⟩]⟩
    [0, 0, 0, 1, 9, 9, 9, 9] [2, 0, 0, 0, 0, 0, 0, 0, 0, 0, 0, 1, 9, 9, 9, 9]
    rfl (by decide) rfl

/-! ### Claim C6: Option round-trip -/

/-- C6: for every Option with a well-formed (16-bit) `OptionClass` on which
`Option.MarshalBinary` succeeds, the output has length `4 + len(Data)` and
`Option.UnmarshalBinary` of that output returns an Option equal to the
original (class, critical flag, type and byte-for-byte `Data`; an option
with empty `Data` decodes to an empty `Data`). -/
theorem c6_option_roundtrip (o : Option) (bs : List Nat)
    (hcls : o.OptionClass < 65536)
    (hok : Option.MarshalBinary o = .ok bs) :
    bs.length = 4 + o.Data.length ∧ Option.UnmarshalBinary bs = .ok o := by
  have e1 : maxOptionType = 127 := by decide
  have e2 : maxOptionLength = 31 := by decide
  simp only [Option.MarshalBinary, e1, e2] at hok
  by_cases h1 : o.Data.length % 4 ≠ 0
  · rw [if_pos h1] at hok
    exact absurd hok (by simp)
  rw [if_neg h1] at hok
  push_neg at h1
  by_cases h2 : 127 < o.«Type»
  · rw [if_pos h2] at hok
    exact absurd hok (by simp)
  rw [if_neg h2] at hok
  by_cases h3 : 31 < o.Data.length / 4
  · rw [if_pos h3] at hok
    exact absurd hok (by simp)
  rw [if_neg h3] at hok
  have hpay : optEnc o = bs := by injection hok
  subst hpay
  refine ⟨optEnc_length o, ?_⟩
  have hu := unmarshal_optEnc o [] ⟨hcls, by omega, h1, by omega⟩ (by simp)
  rwa [List.append_nil] at hu

/-- C6 witness: the round-trip at a concrete critical option with 4 data
bytes. -/
theorem c6_option_roundtrip_witness :
    ([0, 1, 130, 1, 5, 6, 7, 8] : List Nat).length =
      4 + (⟨1, true, 2, [5, 6, 7, 8]⟩ : Option).Data.length ∧
    Option.UnmarshalBinary [0, 1, 130, 1, 5, 6, 7, 8] =
      .ok ⟨1, true, 2, [5, 6, 7, 8]⟩ :=
  c6_option_roundtrip ⟨1, true, 2, [5, 6, 7, 8]⟩ [0, 1, 130, 1, 5, 6, 7, 8]
    (by decide) rfl

/-! ### Claim C7: Option.MarshalBinary error order -/

/-- C7: `Option.MarshalBinary` fails exactly when one of its three checks
fires, evaluated in order: `len(Data) % 4 ≠ 0` gives
`InvalidOptionDataLength`; otherwise `Type > 127` gives
`InvalidOptionType`; otherwise `len(Data)/4 > 31` gives
`InvalidOptionLength`; otherwise it succeeds. -/
theorem c7_option_marshal_error_order (o : Option) :
    (Option.MarshalBinary o = .error .invalidOptionDataLength ↔
      o.Data.length % 4 ≠ 0) ∧
    (Option.MarshalBinary o = .error .invalidOptionType ↔
      o.Data.length % 4 = 0 ∧ 127 < o.«Type») ∧
    (Option.MarshalBinary o = .error .invalidOptionLength ↔
      o.Data.length % 4 = 0 ∧ o.«Type» ≤ 127 ∧ 31 < o.Data.length / 4) ∧
    ((∃ bs, Option.MarshalBinary o = .ok bs) ↔
      o.Data.length % 4 = 0 ∧ o.«Type» ≤ 127 ∧ o.Data.length / 4 ≤ 31) := by
  have e1 : maxOptionType = 127 := by decide
  have e2 : maxOptionLength = 31 := by decide
  simp only [Option.MarshalBinary, e1, e2]
  split_ifs with h1 h2 h3 <;> simp_all

/-! ### Claim C8: Option.UnmarshalBinary error order and field extraction -/

/-- C8: `Option.UnmarshalBinary` fails exactly when one of its three checks
fires, in order: a buffer shorter than 4 bytes gives a short-read error;
otherwise a total length not a multiple of 4 gives `InvalidOptionLength`;
otherwise, with `ol = (buf[3] & 0x1F) * 4`, a buffer shorter than `4 + ol`
gives a short-read error; on success `Type = buf[2] & 0x7F`,
`FlagCritical` is bit 7 of `buf[2]`, and `Data` is exactly bytes
`[4, 4+ol)`. -/
theorem c8_option_unmarshal_error_order (b : List Nat) :
    (Option.UnmarshalBinary b = .error .unexpectedEOF ↔
      b.length < 4 ∨ (b.length % 4 = 0 ∧ b.length < 4 + (byteAt b 3 &&& 0x1f) * 4)) ∧
    (Option.UnmarshalBinary b = .error .invalidOptionLength ↔
      4 ≤ b.length ∧ b.length % 4 ≠ 0) ∧
    (∀ o, Option.UnmarshalBinary b = .ok o ↔
      4 ≤ b.length ∧ b.length % 4 = 0 ∧ 4 + (byteAt b 3 &&& 0x1f) * 4 ≤ b.length ∧
        o = ⟨uint16be b 0, (byteAt b 2 >>> 7) == 1, byteAt b 2 &&& 0x7f,
             (b.drop 4).take ((byteAt b 3 &&& 0x1f) * 4)⟩) := by
  have e4 : optionHeaderLen = 4 := rfl
  simp only [Option.UnmarshalBinary, e4]
  split_ifs with h1 h2 h3 <;> simp_all [eq_comm]

/-! ### Claim C10: options are appended, not reset -/

theorem optionLoop_append (ol : Nat) :
    ∀ (n : Nat) (b : List Nat) (acc : List Option) (i : Nat),
    ol + 1 - i ≤ n →
    optionLoop b ol acc i =
      (acc ++ (optionLoop b ol [] i).1, (optionLoop b ol [] i).2) := by
  intro n
  induction n with
  | zero =>
    intro b acc i hn
    rw [optionLoop, dif_neg (by omega)]
    rw [optionLoop, dif_neg (by omega)]
    simp
  | succ n ih =>
    intro b acc i hn
    by_cases hi : i ≤ ol
    · cases hu : Option.UnmarshalBinary (b.drop i) with
      | error e =>
        rw [optionLoop, dif_pos hi, hu]
        rw [optionLoop, dif_pos hi, hu]
        simp
      | ok o =>
        rw [optionLoop, dif_pos hi, hu]
        rw [optionLoop, dif_pos hi, hu]
        dsimp only
        have hm : ol + 1 - (i + (optionHeaderLen + o.Data.length)) ≤ n := by
          simp only [optionHeaderLen]
          omega
        rw [ih b (acc ++ [o]) _ hm, ih b ([] ++ [o]) _ hm]
        simp
    · rw [optionLoop, dif_neg hi]
      rw [optionLoop, dif_neg hi]
      simp

theorem unmarshalOffset_options (h : Header) (b : List Nat) :
    ((Header.unmarshalBinaryOffset h b).1).Options =
      h.Options ++ ((Header.unmarshalBinaryOffset emptyHeader b).1).Options ∧
    (Header.unmarshalBinaryOffset h b).2 =
      (Header.unmarshalBinaryOffset emptyHeader b).2 := by
  rw [Header.unmarshalBinaryOffset]
  rw [Header.unmarshalBinaryOffset]
  by_cases hb8 : b.length < headerLen
  · rw [if_pos hb8, if_pos hb8]
    simp [emptyHeader]
  · rw [if_neg hb8, if_neg hb8]
    by_cases hbo : b.length < headerLen + (byteAt b 0 &&& 0x3f) * 4
    · rw [if_pos hbo, if_pos hbo]
      simp [emptyHeader]
    · rw [if_neg hbo, if_neg hbo]
      by_cases hz : (byteAt b 0 &&& 0x3f) * 4 = 0
      · rw [if_pos hz, if_pos hz]
        simp [emptyHeader]
      · rw [if_neg hz, if_neg hz]
        have hA := optionLoop_append ((byteAt b 0 &&& 0x3f) * 4)
          (((byteAt b 0 &&& 0x3f) * 4) + 1) b h.Options headerLen
          (by omega)
        dsimp only [emptyHeader]
        rw [hA]
        rcases hres : optionLoop b ((byteAt b 0 &&& 0x3f) * 4) [] headerLen with ⟨X, r⟩
        cases r <;> simp

/-- C10: the decoder appends decoded options to the receiver's existing
`Options` slice rather than resetting it: decoding any buffer into any
receiver leaves the receiver's option list equal to its old list followed
by exactly the options that a decode into a fresh receiver would produce,
with the same result value. -/
theorem c10_options_append (h : Header) (b : List Nat) :
    ((Header.UnmarshalBinary h b).1).Options =
      h.Options ++ ((Header.UnmarshalBinary emptyHeader b).1).Options ∧
    (Header.UnmarshalBinary h b).2 = (Header.UnmarshalBinary emptyHeader b).2 := by
  obtain ⟨hOpt, hRes⟩ := unmarshalOffset_options h b
  rw [Header.UnmarshalBinary, Header.UnmarshalBinary]
  rcases hh : Header.unmarshalBinaryOffset h b with ⟨h1, r1⟩
  rcases he : Header.unmarshalBinaryOffset emptyHeader b with ⟨h2, r2⟩
  rw [hh, he] at hOpt hRes
  dsimp at hOpt hRes
  subst hRes
  cases r1 <;> simp_all

/-! ### Claim C9: reserved-bit tolerance -/

/-- C9: setting any documented reserved bit to 1 leaves decoding unchanged:
bits 5–7 of an option's byte 3 (masked by `& 0x1f`), bits 0–5 of header
byte 1 (only bits 6 and 7 are read), and any bit of header byte 7 (the low
8 bits of the 32-bit word holding the VNI, discarded by `>> 8`).  The
equalities hold for every buffer, so in particular a successfully decoded
buffer still decodes successfully to the same value. -/
theorem c9_reserved_bit_tolerance (b : List Nat) (j : Nat) :
    (5 ≤ j → j ≤ 7 →
      Option.UnmarshalBinary (b.set 3 (byteAt b 3 ||| (1 <<< j))) =
        Option.UnmarshalBinary b) ∧
    (j ≤ 5 →
      Header.unmarshalBinaryOffset emptyHeader (b.set 1 (byteAt b 1 ||| (1 <<< j))) =
        Header.unmarshalBinaryOffset emptyHeader b) ∧
    (j ≤ 7 → byteAt b 7 < 256 →
      Header.unmarshalBinaryOffset emptyHeader (b.set 7 (byteAt b 7 ||| (1 <<< j))) =
        Header.unmarshalBinaryOffset emptyHeader b) := by
  refine ⟨?_, ?_, ?_⟩
  · -- option byte 3, bits 5-7
    intro hj5 hj7
    by_cases hlen : b.length < 4
    · rw [List.set_eq_of_length_le (by omega)]
    · have h3' := byteAt_set_self b 3 (byteAt b 3 ||| (1 <<< j)) (by omega)
      have e0 := byteAt_set_ne b 3 0 (byteAt b 3 ||| (1 <<< j)) (by omega)
      have e1 := byteAt_set_ne b 3 1 (byteAt b 3 ||| (1 <<< j)) (by omega)
      have e2 := byteAt_set_ne b 3 2 (byteAt b 3 ||| (1 <<< j)) (by omega)
      have hzero : (1 <<< j) &&& 0x1f = 0 := by
        rw [Nat.one_shiftLeft, and31]
        obtain ⟨m, rfl⟩ : ∃ m, j = 5 + m := ⟨j - 5, by omega⟩
        rw [pow_add, show (2 : Nat) ^ 5 = 32 by norm_num]
        exact Nat.mul_mod_right 32 _
      have hand : (byteAt b 3 ||| (1 <<< j)) &&& 0x1f = byteAt b 3 &&& 0x1f :=
        lor_and_of_and_zero _ _ _ hzero
      have hdrop4 : (b.set 3 (byteAt b 3 ||| (1 <<< j))).drop optionHeaderLen =
          b.drop optionHeaderLen := by
        show (b.set 3 (byteAt b 3 ||| (1 <<< j))).drop 4 = b.drop 4
        simp [List.drop_set]
      simp only [Option.UnmarshalBinary, List.length_set, uint16be, e0, e1, e2, h3',
        hand, hdrop4]
  · -- header byte 1, bits 0-5
    intro hj5
    by_cases hlen2 : b.length < 2
    · rw [List.set_eq_of_length_le (by omega)]
    · by_cases hlen8 : b.length < 8
      · rw [Header.unmarshalBinaryOffset]
        rw [Header.unmarshalBinaryOffset]
        rw [if_pos (show (b.set 1 (byteAt b 1 ||| (1 <<< j))).length < headerLen by
              rw [List.length_set]; exact hlen8),
            if_pos (show b.length < headerLen from hlen8)]
      · have h1' := byteAt_set_self b 1 (byteAt b 1 ||| (1 <<< j)) (by omega)
        have e0 := byteAt_set_ne b 1 0 (byteAt b 1 ||| (1 <<< j)) (by omega)
        have e2 := byteAt_set_ne b 1 2 (byteAt b 1 ||| (1 <<< j)) (by omega)
        have e3 := byteAt_set_ne b 1 3 (byteAt b 1 ||| (1 <<< j)) (by omega)
        have e4 := byteAt_set_ne b 1 4 (byteAt b 1 ||| (1 <<< j)) (by omega)
        have e5 := byteAt_set_ne b 1 5 (byteAt b 1 ||| (1 <<< j)) (by omega)
        have e6 := byteAt_set_ne b 1 6 (byteAt b 1 ||| (1 <<< j)) (by omega)
        have e7 := byteAt_set_ne b 1 7 (byteAt b 1 ||| (1 <<< j)) (by omega)
        have hsr : (byteAt b 1 ||| (1 <<< j)) >>> 7 = byteAt b 1 >>> 7 := by
          apply lor_small_shiftRight
          rw [Nat.one_shiftLeft]
          exact Nat.pow_lt_pow_right (by norm_num) (by omega)
        have hand : (byteAt b 1 ||| (1 <<< j)) &&& 0x40 = byteAt b 1 &&& 0x40 := by
          apply lor_and_of_and_zero
          rw [Nat.one_shiftLeft, show (0x40 : Nat) = 2 ^ 6 by norm_num,
            Nat.and_two_pow]
          simp [Nat.testBit_two_pow, show j ≠ 6 by omega]
        have hdrop8 : (b.set 1 (byteAt b 1 ||| (1 <<< j))).drop headerLen =
            b.drop headerLen := by
          show (b.set 1 (byteAt b 1 ||| (1 <<< j))).drop 8 = b.drop 8
          simp [List.drop_set]
        have hloop : ∀ ol acc,
            optionLoop (b.set 1 (byteAt b 1 ||| (1 <<< j))) ol acc headerLen =
              optionLoop b ol acc headerLen := fun ol acc =>
          optionLoop_drop_eq ol (ol + 1) _ _ acc headerLen (by omega) hdrop8
        simp only [Header.unmarshalBinaryOffset, List.length_set, uint16be, uint32be,
          e0, e2, e3, e4, e5, e6, e7, h1', hsr, hand, hloop]
  · -- header byte 7 (low 8 bits of the VNI word)
    intro hj7 hb7
    by_cases hlen8 : b.length < 8
    · rw [List.set_eq_of_length_le (by omega)]
    · have h7' := byteAt_set_self b 7 (byteAt b 7 ||| (1 <<< j)) (by omega)
      have e0 := byteAt_set_ne b 7 0 (byteAt b 7 ||| (1 <<< j)) (by omega)
      have e1 := byteAt_set_ne b 7 1 (byteAt b 7 ||| (1 <<< j)) (by omega)
      have e2 := byteAt_set_ne b 7 2 (byteAt b 7 ||| (1 <<< j)) (by omega)
      have e3 := byteAt_set_ne b 7 3 (byteAt b 7 ||| (1 <<< j)) (by omega)
      have e4 := byteAt_set_ne b 7 4 (byteAt b 7 ||| (1 <<< j)) (by omega)
      have e5 := byteAt_set_ne b 7 5 (byteAt b 7 ||| (1 <<< j)) (by omega)
      have e6 := byteAt_set_ne b 7 6 (byteAt b 7 ||| (1 <<< j)) (by omega)
      have h2j : (1 <<< j) < 256 := by
        rw [Nat.one_shiftLeft]
        have h := Nat.pow_le_pow_right (show 1 ≤ 2 by norm_num) hj7
        norm_num at h
        omega
      have hb7or : byteAt b 7 ||| (1 <<< j) < 2 ^ 8 := by
        have h := lor_lt_256 (byteAt b 7) (1 <<< j) hb7 h2j
        norm_num
        exact h
      have hb7lt : byteAt b 7 < 2 ^ 8 := by norm_num; exact hb7
      have hvni : uint32be (b.set 7 (byteAt b 7 ||| (1 <<< j))) 4 >>> 8 =
          uint32be b 4 >>> 8 := by
        rw [uint32be, uint32be, e4, e5, e6, h7',
          lor_small_shiftRight _ _ 8 hb7or, lor_small_shiftRight _ _ 8 hb7lt]
      have hdrop8 : (b.set 7 (byteAt b 7 ||| (1 <<< j))).drop headerLen =
          b.drop headerLen := by
        show (b.set 7 (byteAt b 7 ||| (1 <<< j))).drop 8 = b.drop 8
        simp [List.drop_set]
      have hloop : ∀ ol acc,
          optionLoop (b.set 7 (byteAt b 7 ||| (1 <<< j))) ol acc headerLen =
            optionLoop b ol acc headerLen := fun ol acc =>
        optionLoop_drop_eq ol (ol + 1) _ _ acc headerLen (by omega) hdrop8
      simp only [Header.unmarshalBinaryOffset, List.length_set, uint16be,
        e0, e1, e2, e3, hvni, hloop]

/-- C9 witness: bit 5 at a concrete successfully-decoding option buffer and
a concrete successfully-decoding header buffer. -/
theorem c9_reserved_bit_witness :
    Option.UnmarshalBinary ([0, 1, 2, 0].set 3 (byteAt [0, 1, 2, 0] 3 ||| (1 <<< 5))) =
      Option.UnmarshalBinary [0, 1, 2, 0] ∧
    Header.unmarshalBinaryOffset emptyHeader
        ([0, 0, 0, 0, 0, 0, 0, 0].set 1 (byteAt [0, 0, 0, 0, 0, 0, 0, 0] 1 ||| (1 <<< 5))) =
      Header.unmarshalBinaryOffset emptyHeader [0, 0, 0, 0, 0, 0, 0, 0] ∧
    Header.unmarshalBinaryOffset emptyHeader
        ([0, 0, 0, 0, 0, 0, 0, 0].set 7 (byteAt [0, 0, 0, 0, 0, 0, 0, 0] 7 ||| (1 <<< 5))) =
      Header.unmarshalBinaryOffset emptyHeader [0, 0, 0, 0, 0, 0, 0, 0] :=
  ⟨(c9_reserved_bit_tolerance [0, 1, 2, 0] 5).1 (by decide) (by decide),
   (c9_reserved_bit_tolerance [0, 0, 0, 0, 0, 0, 0, 0] 5).2.1 (by decide),
   (c9_reserved_bit_tolerance [0, 0, 0, 0, 0, 0, 0, 0] 5).2.2 (by decide) (by decide)⟩

end Geneve
